import Mathlib

/-!
# Verification of gitui's hook-path resolution and commit-details extraction

Shallow embedding of `git2-hooks/src/hookspath.rs` and
`asyncgit/src/sync/{hooks.rs, commit_details.rs}`.

Modelling conventions:
* filesystem paths are `String`s; the filesystem is an explicit record of
  pure predicates (`Fs`);
* the shell expansion performed by the external `shellexpand` crate is an
  explicit parameter `expand : String → Option String` (`none` models an
  expansion failure, which the source converts into a hard error);
* process output and exit status are explicit data (`ProcessOutput`);
  `code = none` models termination by a signal;
* the lossy UTF-8 decoding done by Rust's `String::from_utf8_lossy` is an
  explicit total function parameter `lossy : List Nat → String` (totality
  models "never a decode error");
* commit-message text is `List Char`.
-/

namespace Gitui

/-! ## Path model -/

/-- Models Rust `PathBuf::join` for relative second components: append,
inserting a separator unless one is already present. (The absolute-path
replacement behaviour of `PathBuf::join` is not exercised by the claims.) -/
def pathJoin (a b : String) : String :=
  if a.data.getLast? = some '/' then a ++ b else a ++ "/" ++ b

/-- Models Rust `str::trim_end_matches('/')`: remove all trailing slashes. -/
def trimEndSlashes (p : String) : String :=
  ⟨(p.data.reverse.dropWhile (fun c => c = '/')).reverse⟩

/-! ## Filesystem and repository environment -/

/-- File metadata as far as the source consults it: the POSIX mode bits. -/
structure FileMeta where
  mode : Nat
deriving DecidableEq

/-- The filesystem, as consulted by `hookspath.rs`: existence
(`Path::exists`) and metadata (`Path::metadata`, `none` models an error). -/
structure Fs where
  fileExists : String → Bool
  metadata : String → Option FileMeta

/-- The repository handle, as consulted by `HookPaths::new`:
`repo.workdir()` (`none` for bare repositories), `repo.path()` (the git
directory) and the value of the config key `core.hooksPath` when set
(`config_hook_path`: read errors of the key are swallowed to `None` by
`.get_string(..).ok()` in the source). -/
structure Repo where
  workdir : Option String
  path : String
  configHooksPath : Option String

/-- `HooksError` variants exercised here (`hookspath.rs` uses
`PathToString` for non-UTF-8 paths and a shell-expansion error variant). -/
inductive HooksError where
  | pathToString
  | shell
deriving DecidableEq

/-- `const DEFAULT_HOOKS_PATH: &str = "hooks"` -/
def DEFAULT_HOOKS_PATH : String := "hooks"

/-- `const CONFIG_HOOKS_PATH: &str = "core.hooksPath"` -/
def CONFIG_HOOKS_PATH : String := "core.hooksPath"

/-- `pub struct HookPaths { pub git, pub hook, pub pwd }` -/
structure HookPaths where
  git : String
  hook : String
  pwd : String
deriving DecidableEq

/-- The `for p in paths` loop of `HookPaths::find_hook`: return the first
candidate `<gitDir>/<p>/<hook>` that exists, else the default
`<gitDir>/hooks/<hook>`. -/
def find_hook_go (fs : Fs) (gitDir : String) (hook : String) :
    List String → String
  | [] => pathJoin (pathJoin gitDir DEFAULT_HOOKS_PATH) hook
  | p :: rest =>
    let candidate := pathJoin (pathJoin gitDir p) hook
    if fs.fileExists candidate then candidate
    else find_hook_go fs gitDir hook rest

/-- `HookPaths::find_hook`: check the default hook path first, followed by
`other_paths` (trailing slashes trimmed); if no hook is found return the
default hook path. -/
def HookPaths.find_hook (fs : Fs) (repo : Repo)
    (other_paths : Option (List String)) (hook : String) : String :=
  let paths := DEFAULT_HOOKS_PATH ::
    (match other_paths with
     | some others => others.map (fun p => trimEndSlashes p)
     | none => [])
  find_hook_go fs repo.path hook paths

/-- `HookPaths::new`. `core.hooksPath` always takes precedence: when set,
the configured path is joined with the hook name and shell-expanded
(`shellexpand::full`, whose failure is a hard error), and returned without
consulting the filesystem; otherwise `find_hook` searches. In both branches
`pwd` is `repo.workdir().unwrap_or_else(|| repo.path())`.
(`OsStr::to_str` cannot fail in this UTF-8 string model, so the
`PathToString` error path is not reachable here.) -/
def HookPaths.new (fs : Fs) (expand : String → Option String) (repo : Repo)
    (other_paths : Option (List String)) (hook : String) :
    Except HooksError HookPaths :=
  let pwd := repo.workdir.getD repo.path
  let git_dir := repo.path
  match repo.configHooksPath with
  | some config_path =>
    let hookJoined := pathJoin config_path hook
    match expand hookJoined with
    | some expanded =>
      .ok { git := git_dir, hook := expanded, pwd := pwd }
    | none => .error .shell
  | none =>
    .ok { git := git_dir
          hook := HookPaths.find_hook fs repo other_paths hook
          pwd := pwd }

/-- `is_executable` (unix `cfg`): metadata errors yield `false`, otherwise
test `permissions.mode() & 0o111 != 0`. -/
def is_executable_unix (fs : Fs) (path : String) : Bool :=
  match fs.metadata path with
  | none => false
  | some m => m.mode &&& 0o111 != 0

/-- `is_executable` (windows `cfg`): everything counts as executable. -/
def is_executable_windows (_path : String) : Bool :=
  true

/-- `HookPaths::found` on unix: the hook file exists and is executable. -/
def HookPaths.found_unix (fs : Fs) (self : HookPaths) : Bool :=
  fs.fileExists self.hook && is_executable_unix fs self.hook

/-- `HookPaths::found` on windows. -/
def HookPaths.found_windows (fs : Fs) (self : HookPaths) : Bool :=
  fs.fileExists self.hook && is_executable_windows self.hook

/-! ## Hook execution result -/

/-- `std::process::Output`, as far as the source consults it: the exit
code (`status.code()`, `none` when terminated by a signal) and the raw
captured byte streams. `status.success()` holds exactly when the process
exited with code 0. -/
structure ProcessOutput where
  code : Option Int
  stdout : List Nat
  stderr : List Nat

/-- `output.status.success()`. -/
def statusSuccess (out : ProcessOutput) : Bool :=
  out.code == some 0

/-- `git2_hooks::HookResult`. -/
inductive Git2HookResult where
  | Ok (hook : String)
  | NoHookFound
  | RunNotSuccessful (code : Option Int) (stdout stderr : String)
      (hook : String)
deriving DecidableEq

/-- The result construction at the end of `HookPaths::run_hook`, applied
to the `Output` of the spawned process: status 0 gives `Ok`, anything
else gives `RunNotSuccessful` with both streams decoded lossily. -/
def HookPaths.run_hook_outcome (lossy : List Nat → String)
    (self : HookPaths) (out : ProcessOutput) : Git2HookResult :=
  if statusSuccess out then .Ok self.hook
  else
    let stderr := lossy out.stderr
    let stdout := lossy out.stdout
    .RunNotSuccessful out.code stdout stderr self.hook

/-- `HookPaths::run_hook` after platform dispatch: `spawn` is the attempt
to obtain the process `Output` (spawn failures propagate as errors); a
spawned process's exit status, zero or not, produces an `Ok`-wrapped
`HookResult`, never an error. -/
def HookPaths.run_hook (self : HookPaths)
    (spawn : Except String ProcessOutput) (lossy : List Nat → String) :
    Except String Git2HookResult :=
  match spawn with
  | .error e => .error e
  | .ok out => .ok (self.run_hook_outcome lossy out)

/-- `asyncgit::sync::hooks::HookResult`. -/
inductive AsyncHookResult where
  | Ok
  | NotOk (text : String)
deriving DecidableEq

/-- `impl From<git2_hooks::HookResult> for HookResult`: `Ok` and
`NoHookFound` map to `Ok`; `RunNotSuccessful` maps to
`NotOk(format!("{stdout}{stderr}"))`. -/
def hookResultFrom : Git2HookResult → AsyncHookResult
  | .Ok _ => .Ok
  | .NoHookFound => .Ok
  | .RunNotSuccessful _ stdout stderr _ => .NotOk (stdout ++ stderr)

/-! ## Commit message parsing (`commit_details.rs`) -/

/-- Models Rust `str::lines` (an external `std` function the source relies
on): lines are separated by `\n` or `\r\n` (the `\r` of a `\r\n`
terminator is discarded; a lone `\r` is ordinary content), the final line
terminator is optional and produces no trailing empty line. `cur` holds
the characters of the current line in reverse. -/
def linesGo (cur : List Char) : List Char → List (List Char)
  | [] => if cur = [] then [] else [cur.reverse]
  | [c] =>
    if c = '\n' then [cur.reverse]
    else [(c :: cur).reverse]
  | c :: c2 :: rest =>
    if c = '\n' then cur.reverse :: linesGo [] (c2 :: rest)
    else if c = '\r' ∧ c2 = '\n' then cur.reverse :: linesGo [] rest
    else linesGo (c :: cur) (c2 :: rest)

/-- `s.lines()`. -/
def lines (s : List Char) : List (List Char) :=
  linesGo [] s

/-- Models Rust `Vec::join("\n")` as used on the collected body lines. -/
def joinNl : List (List Char) → List Char
  | [] => []
  | [l] => l
  | l :: l2 :: rest => l ++ '\n' :: joinNl (l2 :: rest)

/-- Spec-side definition (from the claim's words): `s` "with every CRLF
sequence replaced by a single LF", i.e. left-to-right non-overlapping
replacement of `\r\n` by `\n`. -/
def crlf : List Char → List Char
  | [] => []
  | [c] => [c]
  | c :: c2 :: rest =>
    if c = '\r' ∧ c2 = '\n' then '\n' :: crlf rest
    else c :: crlf (c2 :: rest)

/-- Remove a single final `'\n'`, when the string ends in one. Used to
state what `combine ∘ from` actually computes. -/
def stripLastNl : List Char → List Char
  | [] => []
  | [c] => if c = '\n' then [] else [c]
  | c :: c2 :: rest => c :: stripLastNl (c2 :: rest)

/-- `pub struct CommitMessage { pub subject, pub body }` -/
structure CommitMessage where
  subject : List Char
  body : Option (List Char)
deriving DecidableEq

/-- `CommitMessage::from` (`from` is a Lean keyword, hence `fromStr`):
`subject` is the first of `s.lines()` (empty when there is none), `body`
is `None` when no lines remain, else the remaining lines joined with
`"\n"`. -/
def CommitMessage.fromStr (s : List Char) : CommitMessage :=
  let ls := lines s
  { subject := ls.headD []
    body := if ls.tail.isEmpty then none else some (joinNl ls.tail) }

/-- `CommitMessage::combine`: `format!("{subject}\n{body}")` when a body
is present, else the subject alone. -/
def CommitMessage.combine (self : CommitMessage) : List Char :=
  match self.body with
  | some body => self.subject ++ '\n' :: body
  | none => self.subject

/-! ## Commit signatures and details (`commit_details.rs`) -/

/-- Models `git2::Error` (external). -/
structure Git2Error where
  msg : String
deriving DecidableEq

/-- Models `git2::Mailmap` (external); its effect on signatures lives in
the commit's mailmap-aware lookup functions below. -/
inductive Mailmap where
  | mk
deriving DecidableEq

/-- Models `git2::Signature` (external): `name()`/`email()` are `None`
when the underlying bytes are not valid UTF-8; `when().seconds()` is the
timestamp. -/
structure Signature where
  name : Option String
  email : Option String
  time : Int
deriving DecidableEq

/-- `pub struct CommitSignature { pub name, pub email, pub time }` -/
structure CommitSignature where
  name : String
  email : String
  time : Int
deriving DecidableEq

/-- `CommitSignature::from`: absent name/email default to `""`. -/
def CommitSignature.fromSig (s : Signature) : CommitSignature :=
  { name := s.name.getD ""
    email := s.email.getD ""
    time := s.time }

/-- Models `git2::Commit` (external) as consulted by the source: id,
plain `author()`/`committer()`, the fallible mailmap-aware lookups, and
the raw message. -/
structure Commit where
  id : String
  author : Signature
  committer : Signature
  message : List Char
  author_with_mailmap : Mailmap → Except Git2Error Signature
  committer_with_mailmap : Mailmap → Except Git2Error Signature

/-- `get_author_of_commit`: on mailmap-lookup failure, log (a side effect
not modelled) and fall back to the unmapped `commit.author()`. -/
def get_author_of_commit (commit : Commit) (mailmap : Mailmap) :
    Signature :=
  match commit.author_with_mailmap mailmap with
  | .ok author => author
  | .error _ => commit.author

/-- `get_committer_of_commit`: on mailmap-lookup failure, log and fall
back to the unmapped `commit.committer()`. -/
def get_committer_of_commit (commit : Commit) (mailmap : Mailmap) :
    Signature :=
  match commit.committer_with_mailmap mailmap with
  | .ok committer => committer
  | .error _ => commit.committer

/-- `pub struct CommitDetails`: `committer` is `None` when equal to
`author`; `message` is declared optional; `hash` is the full hex id. -/
structure CommitDetails where
  author : CommitSignature
  committer : Option CommitSignature
  message : Option CommitMessage
  hash : List Char
deriving DecidableEq

/-- `CommitDetails::short_hash`: `&self.hash[0..7]`. Rust slicing panics
when the string is shorter than 7; the panic is modelled as `none`. -/
def CommitDetails.short_hash (self : CommitDetails) :
    Option (List Char) :=
  if 7 ≤ self.hash.length then some (self.hash.take 7) else none

/-- Modelled from the spec: `get_message(&commit, None)` lives in
`commits_info.rs`, which is not part of this slice's sources; §6 of the
spec specifies it as the "commit message raw bytes/string accessor" (with
no truncation when the limit is `None`). -/
def get_message (commit : Commit) : List Char :=
  commit.message

/-- Models the repository handle as consulted by `get_commit_details`:
`repo.mailmap()` and `repo.find_commit(id)`. -/
structure GitRepo where
  mailmap : Except Git2Error Mailmap
  find_commit : String → Except Git2Error Commit

/-- Models `repo(repo_path)`: opening a repository by path. -/
structure GitEnv where
  repo : String → Except Git2Error GitRepo

/-- `get_commit_details`: open the repo, load the mailmap, find the
commit, resolve both signatures (mailmap errors recovered by the two
getters above), drop the committer when equal to the author, parse the
raw message, and assemble the details with `message` always `Some`. -/
def get_commit_details (env : GitEnv) (repo_path : String) (id : String) :
    Except Git2Error CommitDetails :=
  match env.repo repo_path with
  | .error e => .error e
  | .ok repo =>
    match repo.mailmap with
    | .error e => .error e
    | .ok mailmap =>
      match repo.find_commit id with
      | .error e => .error e
      | .ok commit =>
        let author :=
          CommitSignature.fromSig (get_author_of_commit commit mailmap)
        let committer :=
          CommitSignature.fromSig (get_committer_of_commit commit mailmap)
        let committer :=
          if author = committer then none else some committer
        let msg := CommitMessage.fromStr (get_message commit)
        .ok
          { author := author
            committer := committer
            message := some msg
            hash := id.data }

/-! ## Witness-support concrete values -/

/-- A filesystem on which no path exists. -/
def fsEmpty : Fs :=
  ⟨fun _ => false, fun _ => none⟩

/-- A filesystem on which every path exists with mode `0o755`. -/
def fsFull : Fs :=
  ⟨fun _ => true, fun _ => some ⟨0o755⟩⟩

/-- The identity shell expansion. -/
def expandId : String → Option String :=
  fun s => some s

/-- A non-bare repository with `core.hooksPath` set to `$H`. -/
def repoCfg : Repo :=
  ⟨some "/wt", "/wt/.git", some "$H"⟩

/-- A bare repository without `core.hooksPath`. -/
def repoBare : Repo :=
  ⟨none, "/bare.git", none⟩

/-! ## Hook-path resolution theorems -/

/-- C1: when `core.hooksPath` is set, `HookPaths::new` returns the
shell-expanded join of the configured path with the hook name — whether or
not that file exists and independently of the whole filesystem (so no
fallback search of `<gitDir>/hooks` or the extra search subdirectories
happens) — and a failed expansion is a hard error. -/
theorem hookPaths_new_config_override (fs fs' : Fs)
    (expand : String → Option String) (repo : Repo)
    (other_paths : Option (List String)) (hook cp : String)
    (hcfg : repo.configHooksPath = some cp) :
    (∀ e, expand (pathJoin cp hook) = some e →
      HookPaths.new fs expand repo other_paths hook =
        .ok { git := repo.path, hook := e,
              pwd := repo.workdir.getD repo.path })
    ∧ (expand (pathJoin cp hook) = none →
        HookPaths.new fs expand repo other_paths hook = .error .shell)
    ∧ HookPaths.new fs expand repo other_paths hook =
        HookPaths.new fs' expand repo other_paths hook := by
  unfold HookPaths.new
  rw [hcfg]
  refine ⟨fun e he => ?_, fun hn => ?_, ?_⟩
  · simp only [he]
  · simp only [hn]
  · rfl

/-- Witness for C1: on a repository with `core.hooksPath = "$H"` and an
empty filesystem, resolution returns `$H/commit-msg`. -/
theorem hookPaths_new_config_override_witness :
    repoCfg.configHooksPath = some "$H" ∧
      HookPaths.new fsEmpty expandId repoCfg none "commit-msg" =
        .ok { git := "/wt/.git", hook := "$H/commit-msg", pwd := "/wt" } :=
  ⟨rfl,
    (hookPaths_new_config_override fsEmpty fsFull expandId repoCfg none
      "commit-msg" "$H" rfl).1 "$H/commit-msg" rfl⟩

/-- Spec-side definition (from the spec's words): the search candidates,
in order — the default hooks directory `<gitDir>/hooks`, then each entry
of the search subdirectories with trailing slashes trimmed joined under
`<gitDir>`, each joined with the hook name. -/
def hookCandidatePaths (gitDir : String)
    (other_paths : Option (List String)) (hook : String) : List String :=
  (DEFAULT_HOOKS_PATH :: ((other_paths.getD []).map trimEndSlashes)).map
    (fun p => pathJoin (pathJoin gitDir p) hook)

/-- The search loop returns the first existing candidate, defaulting to
the `<gitDir>/hooks/<hook>` placeholder. -/
theorem find_hook_go_eq_find? (fs : Fs) (gitDir hook : String)
    (ps : List String) :
    find_hook_go fs gitDir hook ps =
      ((ps.map (fun p => pathJoin (pathJoin gitDir p) hook)).find?
          fs.fileExists).getD
        (pathJoin (pathJoin gitDir DEFAULT_HOOKS_PATH) hook) := by
  induction ps with
  | nil => rfl
  | cons p rest ih =>
    by_cases h : fs.fileExists (pathJoin (pathJoin gitDir p) hook)
    · simp [find_hook_go, List.find?_cons_of_pos, h]
    · rw [List.map_cons,
        List.find?_cons_of_neg _ (by simpa using h)]
      simpa [find_hook_go, h] using ih

/-- C2: with `core.hooksPath` unset, `find_hook` returns the first
candidate (default hooks directory first, then the trimmed search
subdirectories under the git directory) whose file exists, and the
non-existent default placeholder `<gitDir>/hooks/<hookName>` when none
exists. -/
theorem find_hook_first_existing (fs : Fs) (repo : Repo)
    (other_paths : Option (List String)) (hook : String) :
    HookPaths.find_hook fs repo other_paths hook =
      ((hookCandidatePaths repo.path other_paths hook).find?
          fs.fileExists).getD
        (pathJoin (pathJoin repo.path DEFAULT_HOOKS_PATH) hook)
    ∧ ((∀ c ∈ hookCandidatePaths repo.path other_paths hook,
          fs.fileExists c = false) →
        HookPaths.find_hook fs repo other_paths hook =
          pathJoin (pathJoin repo.path DEFAULT_HOOKS_PATH) hook) := by
  have hmain : HookPaths.find_hook fs repo other_paths hook =
      ((hookCandidatePaths repo.path other_paths hook).find?
          fs.fileExists).getD
        (pathJoin (pathJoin repo.path DEFAULT_HOOKS_PATH) hook) := by
    unfold HookPaths.find_hook hookCandidatePaths
    cases other_paths <;>
      simp [find_hook_go_eq_find?]
  refine ⟨hmain, fun hnone => ?_⟩
  rw [hmain, List.find?_eq_none.mpr ?_, Option.getD_none]
  intro c hc
  simp [hnone c hc]

/-- Witness for C2: on an empty filesystem with one extra search
subdirectory, the bare repository's default placeholder is returned. -/
theorem find_hook_first_existing_witness :
    HookPaths.find_hook fsEmpty repoBare (some ["sub/"]) "pre-commit" =
      "/bare.git/hooks/pre-commit" :=
  (find_hook_first_existing fsEmpty repoBare (some ["sub/"])
      "pre-commit").2 (by decide)

/-- C5: every successful resolution — `core.hooksPath` set, search hit or
search miss alike — uses the repository's work-tree root as `pwd`,
falling back to the git directory itself for bare repositories. -/
theorem hookPaths_new_pwd (fs : Fs) (expand : String → Option String)
    (repo : Repo) (other_paths : Option (List String)) (hook : String)
    (r : HookPaths)
    (h : HookPaths.new fs expand repo other_paths hook = .ok r) :
    r.pwd = repo.workdir.getD repo.path
    ∧ (repo.workdir = none → r.pwd = repo.path)
    ∧ (∀ w, repo.workdir = some w → r.pwd = w) := by
  have hpwd : r.pwd = repo.workdir.getD repo.path := by
    unfold HookPaths.new at h
    cases hc : repo.configHooksPath with
    | none =>
      rw [hc] at h
      cases h
      rfl
    | some cp =>
      rw [hc] at h
      cases he : expand (pathJoin cp hook) with
      | none => simp only [he] at h; cases h
      | some e => simp only [he] at h; cases h; rfl
  refine ⟨hpwd, fun hw => ?_, fun w hw => ?_⟩
  · rw [hpwd, hw]; rfl
  · rw [hpwd, hw]; rfl

/-- Witness for C5: a bare repository resolves with `pwd` equal to the
git directory. -/
theorem hookPaths_new_pwd_witness :
    (⟨"/bare.git", "/bare.git/hooks/pre-commit", "/bare.git"⟩ :
        HookPaths).pwd = "/bare.git" :=
  (hookPaths_new_pwd fsEmpty expandId repoBare none "pre-commit"
      ⟨"/bare.git", "/bare.git/hooks/pre-commit", "/bare.git"⟩ rfl).2.1 rfl

/-- C6: on unix, `found` holds exactly when the hook file exists and some
execute permission bit of `0o111` is set in its mode, with unreadable
metadata counting as not executable; on windows every path counts as
executable, so `found` reduces to existence. -/
theorem hookPaths_found_executable (fs : Fs) (hp : HookPaths) :
    (hp.found_unix fs = true ↔
      fs.fileExists hp.hook = true ∧
        ∃ m, fs.metadata hp.hook = some m ∧ m.mode &&& 0o111 ≠ 0)
    ∧ (fs.metadata hp.hook = none → hp.found_unix fs = false)
    ∧ hp.found_windows fs = fs.fileExists hp.hook := by
  unfold HookPaths.found_unix HookPaths.found_windows is_executable_unix
    is_executable_windows
  refine ⟨?_, fun hm => ?_, ?_⟩
  · cases hm : fs.metadata hp.hook with
    | none => simp
    | some m =>
      by_cases he : fs.fileExists hp.hook <;> simp [he, hm]
  · rw [hm]; simp
  · simp

/-- Witness for C6: a missing-metadata file is never `found` on unix. -/
theorem hookPaths_found_executable_witness :
    HookPaths.found_unix fsEmpty
      ⟨"/g", "/g/hooks/pre-commit", "/g"⟩ = false :=
  (hookPaths_found_executable fsEmpty
      ⟨"/g", "/g/hooks/pre-commit", "/g"⟩).2.1 rfl

/-- C3: once the hook process has spawned, `run_hook` yields the
`Ok`-wrapped success value exactly when the exit status is 0; a nonzero
exit code or signal termination (`code = none`) yields the normal —
never error — `RunNotSuccessful` value whose two streams are the total
lossy decodings of stdout and stderr, which the `asyncgit` conversion
concatenates stdout-first into `NotOk`. -/
theorem run_hook_status (lossy : List Nat → String) (hp : HookPaths)
    (out : ProcessOutput) :
    (hp.run_hook (.ok out) lossy = .ok (.Ok hp.hook) ↔
      out.code = some 0)
    ∧ (out.code ≠ some 0 →
        hp.run_hook (.ok out) lossy =
          .ok (.RunNotSuccessful out.code (lossy out.stdout)
            (lossy out.stderr) hp.hook)
        ∧ hookResultFrom (hp.run_hook_outcome lossy out) =
            .NotOk (lossy out.stdout ++ lossy out.stderr))
    ∧ (out.code = some 0 →
        hookResultFrom (hp.run_hook_outcome lossy out) = .Ok) := by
  unfold HookPaths.run_hook HookPaths.run_hook_outcome statusSuccess
  by_cases h : out.code = some 0
  · simp [h, hookResultFrom]
  · simp [h, hookResultFrom]

/-- Witness for C3: a process that exits 1 with captured output is
reported as `NotOk` with stdout before stderr. -/
theorem run_hook_status_witness :
    HookPaths.run_hook ⟨"/g", "/g/hooks/pre-commit", "/wt"⟩
        (.ok ⟨some 1, [111, 117], [101]⟩)
        (fun bs => String.mk (List.replicate bs.length 'x')) =
      .ok (.RunNotSuccessful (some 1) "xx" "x" "/g/hooks/pre-commit") ∧
    hookResultFrom
        (HookPaths.run_hook_outcome
          (fun bs => String.mk (List.replicate bs.length 'x'))
          ⟨"/g", "/g/hooks/pre-commit", "/wt"⟩
          ⟨some 1, [111, 117], [101]⟩) = .NotOk "xxx" :=
  (run_hook_status (fun bs => String.mk (List.replicate bs.length 'x'))
      ⟨"/g", "/g/hooks/pre-commit", "/wt"⟩
      ⟨some 1, [111, 117], [101]⟩).2.1 (by decide)

/-! ## Lemmas about `crlf`, `stripLastNl` and `linesGo` -/

/-- `crlf` does not touch a string without `'\n'`. -/
theorem crlf_of_noNl : ∀ (a : List Char), '\n' ∉ a → crlf a = a
  | [], _ => rfl
  | [_], _ => rfl
  | c :: c2 :: rest, h => by
    have h2 : '\n' ∉ c2 :: rest :=
      fun hm => h (List.mem_cons_of_mem _ hm)
    have hc2 : c2 ≠ '\n' :=
      fun he => h2 (he ▸ List.mem_cons_self _ _)
    rw [crlf, if_neg (fun hand => hc2 hand.2), crlf_of_noNl (c2 :: rest) h2]

/-- `crlf` of a nonempty string is nonempty. -/
theorem crlf_ne_nil : ∀ (s : List Char), s ≠ [] → crlf s ≠ []
  | [], h => absurd rfl h
  | [c], _ => by rw [crlf]; exact List.cons_ne_nil c []
  | c :: c2 :: rest, _ => by
    rw [crlf]
    split
    · exact List.cons_ne_nil _ _
    · exact List.cons_ne_nil _ _

/-- Pushing `crlf` past a newline-free chunk that does not end in `'\r'`. -/
theorem crlf_append_nl : ∀ (a : List Char), '\n' ∉ a →
    a.getLast? ≠ some '\r' →
    ∀ t, crlf (a ++ '\n' :: t) = a ++ '\n' :: crlf t
  | [], _, _, t => by
    cases t with
    | nil => rfl
    | cons x t' =>
      rw [List.nil_append, crlf, if_neg (fun hand => absurd hand.1 (by decide))]
      rfl
  | [c], _, hl, t => by
    have hc : c ≠ '\r' := fun he => hl (by rw [List.getLast?_singleton, he])
    have h0 := crlf_append_nl [] (by simp) (by simp) t
    rw [List.nil_append] at h0
    rw [List.cons_append, List.nil_append, crlf,
      if_neg (fun hand => hc hand.1), h0]
    rfl
  | c :: d :: a'', h, hl, t => by
    have h2 : '\n' ∉ d :: a'' :=
      fun hm => h (List.mem_cons_of_mem _ hm)
    have hd : d ≠ '\n' :=
      fun he => h2 (he ▸ List.mem_cons_self _ _)
    have hl2 : (d :: a'').getLast? ≠ some '\r' := by
      rwa [List.getLast?_cons_cons] at hl
    rw [List.cons_append, List.cons_append, crlf,
      if_neg (fun hand => hd hand.2), ← List.cons_append,
      crlf_append_nl (d :: a'') h2 hl2 t]
    rfl

/-- Pushing `crlf` past a newline-free chunk followed by `"\r\n"`: the
pair collapses to `'\n'` whatever the chunk ends in. -/
theorem crlf_append_crnl : ∀ (a : List Char), '\n' ∉ a →
    ∀ t, crlf (a ++ '\r' :: '\n' :: t) = a ++ '\n' :: crlf t
  | [], _, t => by
    rw [List.nil_append, crlf, if_pos ⟨rfl, rfl⟩]
    rfl
  | [c], h, t => by
    have hc : c ≠ '\n' :=
      fun he => h (he ▸ List.mem_cons_self _ _)
    have h0 := crlf_append_crnl [] (by simp) t
    rw [List.nil_append] at h0
    rw [List.cons_append, List.nil_append, crlf,
      if_neg (fun hand => absurd hand.2 (by decide)), h0]
    rfl
  | c :: d :: a'', h, t => by
    have h2 : '\n' ∉ d :: a'' :=
      fun hm => h (List.mem_cons_of_mem _ hm)
    have hd : d ≠ '\n' :=
      fun he => h2 (he ▸ List.mem_cons_self _ _)
    rw [List.cons_append, List.cons_append, crlf,
      if_neg (fun hand => hd hand.2), ← List.cons_append,
      crlf_append_crnl (d :: a'') h2 t]
    rfl

/-- `stripLastNl` only inspects the nonempty tail of an append. -/
theorem stripLastNl_append : ∀ (a X : List Char), X ≠ [] →
    stripLastNl (a ++ X) = a ++ stripLastNl X
  | [], _, _ => by rw [List.nil_append, List.nil_append]
  | [c], X, hX => by
    cases X with
    | nil => exact absurd rfl hX
    | cons x X' =>
      rw [List.cons_append, List.nil_append, stripLastNl]
      rfl
  | c :: d :: a', X, hX => by
    rw [List.cons_append, List.cons_append, stripLastNl,
      ← List.cons_append, stripLastNl_append (d :: a') X hX]
    rfl

/-- `stripLastNl` does not touch a string without `'\n'`. -/
theorem stripLastNl_of_noNl : ∀ (a : List Char), '\n' ∉ a →
    stripLastNl a = a
  | [], _ => rfl
  | [c], h => by
    have hc : c ≠ '\n' :=
      fun he => h (he ▸ List.mem_cons_self _ _)
    rw [stripLastNl, if_neg hc]
  | c :: d :: a', h => by
    have h2 : '\n' ∉ d :: a' :=
      fun hm => h (List.mem_cons_of_mem _ hm)
    rw [stripLastNl, stripLastNl_of_noNl (d :: a') h2]

/-- A nonempty input yields at least one line. -/
theorem linesGo_ne_nil : ∀ (cur s : List Char), s ≠ [] →
    linesGo cur s ≠ []
  | _, [], h => absurd rfl h
  | cur, [c], _ => by
    rw [linesGo]
    split
    · exact List.cons_ne_nil _ _
    · exact List.cons_ne_nil _ _
  | cur, c :: c2 :: rest, _ => by
    rw [linesGo]
    split
    · exact List.cons_ne_nil _ _
    · split
      · exact List.cons_ne_nil _ _
      · exact linesGo_ne_nil (c :: cur) (c2 :: rest) (List.cons_ne_nil _ _)

/-- `joinNl` over a cons with nonempty tail. -/
theorem joinNl_cons_of_ne_nil (l : List Char) (L : List (List Char))
    (hL : L ≠ []) : joinNl (l :: L) = l ++ '\n' :: joinNl L := by
  cases L with
  | nil => exact absurd rfl hL
  | cons l2 L' => rfl

/-- The terminal case of the `linesGo` invariant. -/
theorem joinNl_linesGo_nil (cur : List Char) (hcur : '\n' ∉ cur) :
    joinNl (linesGo cur []) = stripLastNl (crlf cur.reverse) := by
  have hnoNl : '\n' ∉ cur.reverse := by simpa using hcur
  rw [crlf_of_noNl _ hnoNl, stripLastNl_of_noNl _ hnoNl, linesGo]
  by_cases h : cur = []
  · simp [h, joinNl]
  · rw [if_neg h]
    rfl

/-- The accumulator invariant behind `lines`: joining the produced lines
with `'\n'` recovers the CRLF-normalized remaining input (prefixed with
the reversed current line) with a single final newline stripped. `cur`
never contains `'\n'`, and never starts with a `'\r'` while the input
starts with `'\n'` (the two-character lookahead consumes such pairs). -/
theorem joinNl_linesGo : ∀ (n : Nat) (s cur : List Char),
    s.length ≤ n → '\n' ∉ cur →
    ¬(cur.head? = some '\r' ∧ s.head? = some '\n') →
    joinNl (linesGo cur s) = stripLastNl (crlf (cur.reverse ++ s)) := by
  intro n
  induction n with
  | zero =>
    intro s cur hlen hcur _
    have hs : s = [] := List.length_eq_zero.mp (Nat.le_zero.mp hlen)
    subst hs
    rw [List.append_nil]
    exact joinNl_linesGo_nil cur hcur
  | succ n ih =>
    intro s cur hlen hcur hhead
    have hnoNl : '\n' ∉ cur.reverse := by simpa using hcur
    cases s with
    | nil =>
      rw [List.append_nil]
      exact joinNl_linesGo_nil cur hcur
    | cons c s2 =>
      cases s2 with
      | nil =>
        by_cases hc : c = '\n'
        · subst hc
          have hlast : cur.reverse.getLast? ≠ some '\r' := by
            rw [List.getLast?_reverse]
            intro hh
            exact hhead ⟨hh, rfl⟩
          rw [linesGo, if_pos rfl,
            crlf_append_nl cur.reverse hnoNl hlast [],
            stripLastNl_append cur.reverse ('\n' :: crlf [])
              (List.cons_ne_nil _ _)]
          simp [joinNl, stripLastNl, crlf]
        · rw [linesGo, if_neg hc]
          have hnoNl2 : '\n' ∉ cur.reverse ++ [c] := by
            intro hm
            rcases List.mem_append.mp hm with hm | hm
            · exact hnoNl hm
            · exact hc (List.mem_singleton.mp hm).symm
          rw [crlf_of_noNl _ hnoNl2, stripLastNl_of_noNl _ hnoNl2]
          exact List.reverse_cons c cur
      | cons c2 rest =>
        by_cases hc : c = '\n'
        · subst hc
          have hlast : cur.reverse.getLast? ≠ some '\r' := by
            rw [List.getLast?_reverse]
            intro hh
            exact hhead ⟨hh, rfl⟩
          rw [linesGo, if_pos rfl,
            joinNl_cons_of_ne_nil _ _
              (linesGo_ne_nil [] (c2 :: rest) (List.cons_ne_nil _ _))]
          have hih := ih (c2 :: rest) []
            (by simp only [List.length_cons] at hlen ⊢; omega)
            (by simp) (by simp)
          rw [List.reverse_nil, List.nil_append] at hih
          rw [hih, crlf_append_nl cur.reverse hnoNl hlast (c2 :: rest),
            show cur.reverse ++ '\n' :: crlf (c2 :: rest) =
                (cur.reverse ++ ['\n']) ++ crlf (c2 :: rest) from by
              rw [List.append_assoc]; rfl,
            stripLastNl_append _ _ (crlf_ne_nil _ (List.cons_ne_nil _ _)),
            List.append_assoc]
          rfl
        · by_cases hcr : c = '\r' ∧ c2 = '\n'
          · obtain ⟨hc1, hc2⟩ := hcr
            subst hc1
            subst hc2
            rw [linesGo, if_neg hc, if_pos ⟨rfl, rfl⟩,
              crlf_append_crnl cur.reverse hnoNl rest]
            cases rest with
            | nil =>
              rw [stripLastNl_append cur.reverse ('\n' :: crlf [])
                (List.cons_ne_nil _ _)]
              simp [linesGo, joinNl, stripLastNl, crlf]
            | cons r rest' =>
              rw [joinNl_cons_of_ne_nil _ _
                (linesGo_ne_nil [] (r :: rest') (List.cons_ne_nil _ _))]
              have hih := ih (r :: rest') []
                (by simp only [List.length_cons] at hlen ⊢; omega)
                (by simp) (by simp)
              rw [List.reverse_nil, List.nil_append] at hih
              rw [hih,
                show cur.reverse ++ '\n' :: crlf (r :: rest') =
                    (cur.reverse ++ ['\n']) ++ crlf (r :: rest') from by
                  rw [List.append_assoc]; rfl,
                stripLastNl_append _ _
                  (crlf_ne_nil _ (List.cons_ne_nil _ _)),
                List.append_assoc]
              rfl
          · rw [linesGo, if_neg hc, if_neg hcr]
            have hih := ih (c2 :: rest) (c :: cur)
              (by simp only [List.length_cons] at hlen ⊢; omega)
              (by
                intro hm
                rcases List.mem_cons.mp hm with hm | hm
                · exact hc hm.symm
                · exact hcur hm)
              (by
                intro hpair
                exact hcr ⟨by simpa using hpair.1, by simpa using hpair.2⟩)
            rw [hih, List.reverse_cons, List.append_assoc]
            rfl

/-- `combine ∘ from` is joining the lines back with `'\n'`. -/
theorem combine_fromStr_eq_joinNl (s : List Char) :
    (CommitMessage.fromStr s).combine = joinNl (lines s) := by
  rw [CommitMessage.fromStr]
  cases h : lines s with
  | nil => rfl
  | cons l L =>
    cases L with
    | nil => rfl
    | cons l2 L' => rfl

/-- C4 counterexample: on `"foo\n"` the round trip drops the trailing
newline, so `from(s).combine()` differs from the CRLF-normalization of
`s`. -/
theorem combine_fromStr_trailing_newline_counterexample :
    (CommitMessage.fromStr ("foo\n").data).combine ≠
      crlf ("foo\n").data := by
  decide

/-- C4 (amended): for every string `s`, `from(s).combine()` equals `s`
with every CRLF replaced by a single LF and then at most one trailing
line feed removed. -/
theorem combine_fromStr_crlf (s : List Char) :
    (CommitMessage.fromStr s).combine = stripLastNl (crlf s) := by
  rw [combine_fromStr_eq_joinNl, lines]
  have h := joinNl_linesGo s.length s [] le_rfl (by simp) (by simp)
  rwa [List.reverse_nil, List.nil_append] at h

/-- No produced line contains `'\n'`. -/
theorem linesGo_noNl : ∀ (cur s : List Char), '\n' ∉ cur →
    ∀ l ∈ linesGo cur s, '\n' ∉ l
  | cur, [], hcur => by
    rw [linesGo]
    split
    · simp
    · intro l hl
      rw [List.mem_singleton.mp hl]
      simpa using hcur
  | cur, [c], hcur => by
    rw [linesGo]
    split
    · intro l hl
      rw [List.mem_singleton.mp hl]
      simpa using hcur
    · rename_i hc
      intro l hl
      rw [List.mem_singleton.mp hl]
      intro hm
      rw [List.mem_reverse] at hm
      rcases List.mem_cons.mp hm with hm | hm
      · exact hc hm.symm
      · exact hcur hm
  | cur, c :: c2 :: rest, hcur => by
    rw [linesGo]
    split
    · intro l hl
      rcases List.mem_cons.mp hl with hl | hl
      · rw [hl]; simpa using hcur
      · exact linesGo_noNl [] (c2 :: rest) (by simp) l hl
    · split
      · intro l hl
        rcases List.mem_cons.mp hl with hl | hl
        · rw [hl]; simpa using hcur
        · exact linesGo_noNl [] rest (by simp) l hl
      · rename_i hc _
        intro l hl
        refine linesGo_noNl (c :: cur) (c2 :: rest) ?_ l hl
        intro hm
        rcases List.mem_cons.mp hm with hm | hm
        · exact hc hm.symm
        · exact hcur hm

/-- C7: `from` splits on line boundaries with CRLF treated as a
terminator whose CR is discarded: the subject is the first line (never
containing a newline, empty for empty input) and the body is `None` iff
no lines remain, else the remaining lines rejoined with `'\n'`; in
particular `from("foo\nbar\r\ntest")` has subject `"foo"` and body
`Some("bar\ntest")`. -/
theorem fromStr_subject_body (s : List Char) :
    (CommitMessage.fromStr ("foo\nbar\r\ntest").data).subject =
      ("foo").data
    ∧ (CommitMessage.fromStr ("foo\nbar\r\ntest").data).body =
        some (("bar\ntest").data)
    ∧ '\n' ∉ (CommitMessage.fromStr s).subject
    ∧ (CommitMessage.fromStr []).subject = []
    ∧ (CommitMessage.fromStr []).body = none
    ∧ ((CommitMessage.fromStr s).body = none ↔ (lines s).tail = [])
    ∧ (∀ rest, (lines s).tail = rest → rest ≠ [] →
        (CommitMessage.fromStr s).body = some (joinNl rest)) := by
  refine ⟨by decide, by decide, ?_, by decide, by decide, ?_, ?_⟩
  · show '\n' ∉ (lines s).headD []
    cases h : lines s with
    | nil => simp
    | cons l L =>
      have hl : l ∈ linesGo [] s := by
        have h2 : l ∈ lines s := by
          rw [h]
          exact List.mem_cons_self _ _
        simpa [lines] using h2
      simpa using linesGo_noNl [] s (by simp) l hl
  · show (if (lines s).tail.isEmpty then none
        else some (joinNl (lines s).tail)) = none ↔ (lines s).tail = []
    cases htail : (lines s).tail with
    | nil => simp
    | cons x xs => simp
  · intro rest hrest hne
    show (if (lines s).tail.isEmpty then none
        else some (joinNl (lines s).tail)) = some (joinNl rest)
    rw [hrest]
    cases rest with
    | nil => exact absurd rfl hne
    | cons x xs => rfl

/-- Witness for C7: the nonempty remainder of `"foo\nbar\r\ntest"` gives
the body `Some` of the rejoined lines. -/
theorem fromStr_subject_body_witness :
    (CommitMessage.fromStr ("foo\nbar\r\ntest").data).body =
      some (joinNl [("bar").data, ("test").data]) :=
  (fromStr_subject_body ("foo\nbar\r\ntest").data).2.2.2.2.2.2
    [("bar").data, ("test").data] (by decide) (by decide)

/-! ## Commit-details theorems -/

/-- C9: with `hash` of length at least 7, `short_hash` is exactly the
first 7 characters (no out-of-bounds panic, modelled as `none`); below 7
the slice `hash[0..7]` is out of bounds. -/
theorem short_hash_spec (d : CommitDetails) :
    (7 ≤ d.hash.length →
      d.short_hash = some (d.hash.take 7) ∧
        (d.hash.take 7).length = 7 ∧ d.short_hash.isSome = true)
    ∧ (d.hash.length < 7 → d.short_hash = none) := by
  unfold CommitDetails.short_hash
  constructor
  · intro h
    rw [if_pos h]
    refine ⟨rfl, ?_, rfl⟩
    rw [List.length_take]
    exact Nat.min_eq_left h
  · intro h
    rw [if_neg (by omega)]

/-- A 40-character hex id (witness support for C9). -/
def detailsA : CommitDetails :=
  ⟨⟨"name", "email", 0⟩, none, none,
    ("0123456789abcdef0123456789abcdef01234567").data⟩

/-- Witness for C9: the usual 40-character id yields its first 7
characters. -/
theorem short_hash_spec_witness :
    detailsA.short_hash = some (detailsA.hash.take 7) :=
  ((short_hash_spec detailsA).1 (by decide)).1

/-- C8: the two signature getters are total: a successful mailmap-aware
lookup is returned as-is, and a failed one falls back to the unmapped
`author()`/`committer()` signature instead of propagating the error. -/
theorem mailmap_fallback (commit : Commit) (mailmap : Mailmap) :
    (∀ a, commit.author_with_mailmap mailmap = .ok a →
      get_author_of_commit commit mailmap = a)
    ∧ (∀ e, commit.author_with_mailmap mailmap = .error e →
        get_author_of_commit commit mailmap = commit.author)
    ∧ (∀ c, commit.committer_with_mailmap mailmap = .ok c →
        get_committer_of_commit commit mailmap = c)
    ∧ (∀ e, commit.committer_with_mailmap mailmap = .error e →
        get_committer_of_commit commit mailmap = commit.committer) := by
  refine ⟨fun a ha => ?_, fun e he => ?_, fun c hc => ?_,
    fun e he => ?_⟩
  · unfold get_author_of_commit
    rw [ha]
  · unfold get_author_of_commit
    rw [he]
  · unfold get_committer_of_commit
    rw [hc]
  · unfold get_committer_of_commit
    rw [he]

/-- An author signature (witness support). -/
def sigA : Signature :=
  ⟨some "alice", some "alice@example.com", 10⟩

/-- A committer signature (witness support). -/
def sigB : Signature :=
  ⟨some "bob", some "bob@example.com", 20⟩

/-- A commit whose mailmap-aware lookups both fail (witness support). -/
def commitFail : Commit :=
  ⟨"abcd", sigA, sigB, ("s").data,
    fun _ => .error ⟨"mailmap"⟩, fun _ => .error ⟨"mailmap"⟩⟩

/-- Witness for C8: failed mailmap lookups fall back to the unmapped
signatures. -/
theorem mailmap_fallback_witness :
    get_author_of_commit commitFail .mk = sigA ∧
      get_committer_of_commit commitFail .mk = sigB :=
  ⟨(mailmap_fallback commitFail .mk).2.1 ⟨"mailmap"⟩ rfl,
    (mailmap_fallback commitFail .mk).2.2.2 ⟨"mailmap"⟩ rfl⟩

/-- C10: whenever `get_commit_details` succeeds, the `message` field of
the result — though declared optional — is `Some` of the parse of the
commit's raw message, never `None`. -/
theorem get_commit_details_message_some (env : GitEnv)
    (repo_path id : String) (d : CommitDetails)
    (h : get_commit_details env repo_path id = .ok d) :
    ∃ repo mailmap commit,
      env.repo repo_path = .ok repo ∧ repo.mailmap = .ok mailmap ∧
        repo.find_commit id = .ok commit ∧
        d.message = some (CommitMessage.fromStr (get_message commit)) ∧
        d.message ≠ none := by
  unfold get_commit_details at h
  cases hr : env.repo repo_path with
  | error e => simp only [hr] at h; exact Except.noConfusion h
  | ok repo =>
    simp only [hr] at h
    cases hm : repo.mailmap with
    | error e => simp only [hm] at h; exact Except.noConfusion h
    | ok mailmap =>
      simp only [hm] at h
      cases hc : repo.find_commit id with
      | error e => simp only [hc] at h; exact Except.noConfusion h
      | ok commit =>
        simp only [hc, Except.ok.injEq] at h
        subst h
        exact ⟨repo, mailmap, commit, rfl, hm, hc, rfl, by simp⟩

/-- A commit with successful mailmap lookups (witness support). -/
def commitOk : Commit :=
  ⟨"abcd", sigA, sigA, ("subject\nbody").data,
    fun _ => .ok sigA, fun _ => .ok sigA⟩

/-- A repository holding `commitOk` under id `"abcd"` (witness support). -/
def gitRepoA : GitRepo :=
  ⟨.ok .mk,
    fun i => if i = "abcd" then .ok commitOk else .error ⟨"notfound"⟩⟩

/-- An environment holding `gitRepoA` at `"/repo"` (witness support). -/
def gitEnvA : GitEnv :=
  ⟨fun p => if p = "/repo" then .ok gitRepoA else .error ⟨"norepo"⟩⟩

/-- The details produced for `commitOk` (witness support). -/
def detailsOk : CommitDetails :=
  ⟨CommitSignature.fromSig sigA, none,
    some ⟨("subject").data, some (("body").data)⟩, ("abcd").data⟩

/-- Witness for C10: a concrete successful extraction carries
`message = Some` of the parsed raw message. -/
theorem get_commit_details_message_some_witness :
    ∃ repo mailmap commit,
      gitEnvA.repo "/repo" = .ok repo ∧ repo.mailmap = .ok mailmap ∧
        repo.find_commit "abcd" = .ok commit ∧
        detailsOk.message =
          some (CommitMessage.fromStr (get_message commit)) ∧
        detailsOk.message ≠ none :=
  get_commit_details_message_some gitEnvA "/repo" "abcd" detailsOk rfl

end Gitui
